import Mathlib

set_option maxHeartbeats 1000000

/- Verification development for the resumable enumeration-and-dedup engine
   of `main.py`: per-length existing-set scan, ordered / per-position-shuffled
   Cartesian-product walk, duplicate-skip/write decision, and statistics
   aggregation.  The output file is modelled as the list of its lines (one
   written string per line, the trailing newline being the line separator). -/

/-- Uppercase ASCII letters, `string.ascii_uppercase` in `main.py`. -/
def UPPER : List Char := "ABCDEFGHIJKLMNOPQRSTUVWXYZ".data

/-- Lowercase ASCII letters, `string.ascii_lowercase` in `main.py`. -/
def LOWER : List Char := "abcdefghijklmnopqrstuvwxyz".data

/-- Digit set used by `main.py` (`"123456789"`, zero intentionally excluded). -/
def DIGITS : List Char := "123456789".data

/-- Python `string.punctuation`: the 32 ASCII characters with codes
    33..47, 58..64, 91..96 and 123..126, in ascending code order. -/
def SYMBOLS : List Char :=
  ((List.range' 33 15) ++ (List.range' 58 7) ++ (List.range' 91 6) ++
    (List.range' 123 4)).map Char.ofNat

/-- The full character set `UPPER + LOWER + DIGITS + SYMBOLS` of `main.py`. -/
def CHARSET : List Char := UPPER ++ LOWER ++ DIGITS ++ SYMBOLS

/-- Python `s.rstrip("\n\r")`: drop every trailing newline or carriage-return
    character of `s`. -/
def rstripNl (s : String) : String :=
  String.mk (((s.data.reverse).dropWhile (fun c => c == '\n' || c == '\r')).reverse)

/-- A raw line of the file as read with `errors="ignore"`: each byte either
    decodes to a character (`some c`) or is malformed (`none`). -/
def RawLine : Type := List (Option Char)

/-- Decoding with `errors="ignore"`: malformed bytes are skipped. -/
def decode_ignore (raw : RawLine) : String :=
  String.mk (raw.filterMap id)

/-- Model of `scan_existing_by_len`: `none` stands for a non-existent file
    (the `filepath.exists()` check), otherwise the file's raw lines are
    decoded with `errors="ignore"`, stripped of trailing newline characters,
    and collected into a set when their length equals `target_len`.
    The function is read-only and total: it returns a set and never fails. -/
def scan_existing_by_len (file : Option (List RawLine)) (target_len : Nat) :
    Finset String :=
  match file with
  | none => ∅
  | some lines =>
    lines.foldl (fun ex raw =>
      let s := rstripNl (decode_ignore raw)
      if s.length = target_len then insert s ex else ex) ∅

/-- View of a list of fully-valid text lines as raw lines (every character
    decodes); this is the shape of everything the engine itself writes. -/
def linesToRaw (lines : List String) : List RawLine :=
  lines.map (fun s => s.data.map some)

/-- The lazy Cartesian product `itertools.product(*ls)` as a list:
    the first factor varies slowest, the last factor fastest. -/
def product_of : List (List Char) → List (List Char)
  | [] => [[]]
  | cs :: rest => cs.flatMap (fun c => (product_of rest).map (fun w => c :: w))

/-- Ordered mode `itertools.product(CHARSET, repeat=L)`: the product of `L`
    copies of the charset. -/
def iter_product (cs : List Char) (L : Nat) : List (List Char) :=
  product_of (List.replicate L cs)

/-- The candidate strings of one length in ordered mode (`s = "".join(tup)`). -/
def iter_product_strings (cs : List Char) (L : Nat) : List String :=
  (iter_product cs L).map String.mk

/-- Odometer enumeration: `odometer cs L n` is the length-`L` word whose
    rightmost character is `cs[n % C]`, so the rightmost position advances
    fastest as `n` increases. -/
def odometer (cs : List Char) : Nat → Nat → List Char
  | 0, _ => []
  | L + 1, n => odometer cs L (n / cs.length) ++ [cs.getD (n % cs.length) default]

/-- Per-length statistics dictionary entry of `main.py`. -/
structure LenStats where
  possible : Nat
  existing : Nat
  written : Nat
  failed : Nat
deriving Repr, DecidableEq

/-- The all-zero entry, the default of `per_len.get(L, {...})`. -/
def zeroStats : LenStats := ⟨0, 0, 0, 0⟩

/-- One observable step of the engine's control flow: entering a new length
    (`for L in range(...)` body head: scan + stats initialisation) or testing
    one candidate of the current length. -/
inductive Ev where
  | startLen : Nat → Ev
  | cand : Nat → String → Ev
deriving Repr, DecidableEq

/-- State of `main`'s enumeration loop: the output file (as its list of
    lines), the in-memory existing-set `have` of the length being processed,
    the three global counters, and the per-length statistics map. -/
structure EngState where
  file : List String
  hav : Finset String
  total_attempts : Nat
  total_written : Nat
  total_failed : Nat
  stats : Nat → LenStats

/-- Pointwise update of the per-length statistics map. -/
def updStats (f : Nat → LenStats) (L : Nat) (g : LenStats → LenStats) :
    Nat → LenStats :=
  fun L' => if L' = L then g (f L') else f L'

/-- One engine step.  `startLen L` performs the pre-scan
    `have = scan_existing_by_len(out_path, L)` and initialises
    `per_len_stats[L]`; `cand L s` is one iteration of the enumeration loop:
    increment attempts, then either count a duplicate as failed or append the
    new line, insert it into `have`, and bump written/existing. -/
def step (cs : List Char) (st : EngState) : Ev → EngState
  | .startLen L =>
    let hv := scan_existing_by_len (some (linesToRaw st.file)) L
    { st with
      hav := hv
      stats := updStats st.stats L (fun _ => ⟨cs.length ^ L, hv.card, 0, 0⟩) }
  | .cand L s =>
    let st' := { st with total_attempts := st.total_attempts + 1 }
    if s ∈ st'.hav then
      { st' with
        total_failed := st'.total_failed + 1
        stats := updStats st'.stats L (fun t => { t with failed := t.failed + 1 }) }
    else
      { st' with
        file := st'.file ++ [s]
        hav := insert s st'.hav
        total_written := st'.total_written + 1
        stats := updStats st'.stats L
          (fun t => { t with written := t.written + 1, existing := t.existing + 1 }) }

/-- Candidate events for one list of candidate strings. -/
def candEvs (L : Nat) (ss : List String) : List Ev :=
  ss.map (Ev.cand L)

/-- The events of processing one length in ordered mode. -/
def lenEvents (cs : List Char) (L : Nat) : List Ev :=
  Ev.startLen L :: candEvs L (iter_product_strings cs L)

/-- The events of processing one length in shuffled mode, with the drawn
    per-position permutations `perms` (`itertools.product(*per_pos)`). -/
def lenEventsShuffled (L : Nat) (perms : List (List Char)) : List Ev :=
  Ev.startLen L :: candEvs L ((product_of perms).map String.mk)

/-- The events of a whole run over lengths `min_len..max_len` (inclusive). -/
def runEvents (cs : List Char) (min_len max_len : Nat) : List Ev :=
  (List.range' min_len (max_len + 1 - min_len)).flatMap (lenEvents cs)

/-- Initial loop state over a given output file content. -/
def initState (file : List String) : EngState :=
  { file := file
    hav := ∅
    total_attempts := 0
    total_written := 0
    total_failed := 0
    stats := fun _ => zeroStats }

/-- An uninterrupted ordered-mode run of the enumeration loop of `main`. -/
def runEngine (cs : List Char) (min_len max_len : Nat) (file : List String) :
    EngState :=
  (runEvents cs min_len max_len).foldl (step cs) (initState file)

/-- Outcome of `main`: exit code, final output-file content (`none` when the
    file was never created), whether a report file was written, and the final
    engine state when the engine ran. -/
structure MainResult where
  exit_code : Nat
  out_file : Option (List String)
  report_written : Bool
  state : Option EngState

namespace main_py

/-- Model of `main` up to the peripheral rendering: validate the length
    bounds first (exiting with status 1 before any file I/O), otherwise
    create/open the output file in append mode, run the engine, and write the
    final report. -/
def main (cs : List Char) (min_len max_len : Int) (file : Option (List String)) :
    MainResult :=
  if min_len < 1 ∨ max_len < min_len then
    { exit_code := 1, out_file := file, report_written := false, state := none }
  else
    let st := runEngine cs min_len.toNat max_len.toNat (file.getD [])
    { exit_code := 0, out_file := some st.file, report_written := true,
      state := some st }

end main_py

/-- One engine step under Python's exception semantics for the periodic
    flush: right after a successful write, `total_written % flush_every` is
    evaluated, which raises `ZeroDivisionError` when `flush_every = 0`. -/
def stepE (cs : List Char) (flush_every : Nat) (st : EngState) (ev : Ev) :
    Except Unit EngState :=
  match ev with
  | .startLen L => .ok (step cs st (.startLen L))
  | .cand L s =>
    if s ∈ st.hav then .ok (step cs st (.cand L s))
    else if flush_every = 0 then .error ()
    else .ok (step cs st (.cand L s))

/-- Run of the engine under the exception semantics: the first raised
    `ZeroDivisionError` aborts the run. -/
def runE (cs : List Char) (flush_every : Nat) :
    EngState → List Ev → Except Unit EngState
  | st, [] => .ok st
  | st, ev :: evs =>
    match stepE cs flush_every st ev with
    | .error e => .error e
    | .ok st' => runE cs flush_every st' evs

/-- Length of the Cartesian product is the product of the factor lengths. -/
theorem length_product_of (ls : List (List Char)) :
    (product_of ls).length = (ls.map List.length).prod := by
  induction ls with
  | nil => rfl
  | cons cs rest ih =>
    simp only [product_of, List.length_flatMap]
    have h1 : (List.map (List.length ∘ fun c => (product_of rest).map (fun w => c :: w)) cs)
        = List.replicate cs.length (product_of rest).length := by
      rw [List.eq_replicate_iff]
      constructor
      · simp
      · intro b hb
        simp only [List.mem_map, Function.comp] at hb
        obtain ⟨c, _, rfl⟩ := hb
        simp
    rw [h1, List.sum_replicate, smul_eq_mul, ih]
    simp

/-- Membership in a Cartesian product whose factors all have the same set of
    members as `cs`: exactly the words of the right length over `cs`. -/
theorem mem_product_of_uniform (cs : List Char) :
    ∀ (ls : List (List Char)) (w : List Char),
      (∀ p ∈ ls, ∀ c, c ∈ p ↔ c ∈ cs) →
      (w ∈ product_of ls ↔ w.length = ls.length ∧ ∀ c ∈ w, c ∈ cs) := by
  intro ls
  induction ls with
  | nil =>
    intro w _
    simp only [product_of, List.mem_singleton, List.length_nil]
    constructor
    · rintro rfl; simp
    · rintro ⟨hlen, -⟩
      exact List.length_eq_zero.mp hlen
  | cons p rest ih =>
    intro w hp
    simp only [product_of, List.mem_flatMap, List.mem_map, List.length_cons]
    constructor
    · rintro ⟨c, hc, w', hw', rfl⟩
      have h' := (ih w' (fun q hq c' => hp q (List.mem_cons_of_mem _ hq) c')).1 hw'
      refine ⟨by simp [h'.1], ?_⟩
      intro d hd
      rcases List.mem_cons.mp hd with rfl | hd'
      · exact (hp p (List.mem_cons_self _ _) d).mp hc
      · exact h'.2 d hd'
    · rintro ⟨hlen, hmem⟩
      cases w with
      | nil => simp at hlen
      | cons c w' =>
        refine ⟨c, (hp p (List.mem_cons_self _ _) c).mpr
          (hmem c (List.mem_cons_self _ _)), w', ?_, rfl⟩
        refine (ih w' (fun q hq c' => hp q (List.mem_cons_of_mem _ hq) c')).2 ⟨?_, ?_⟩
        · simpa using hlen
        · intro d hd; exact hmem d (List.mem_cons_of_mem _ hd)

/-- The Cartesian product of duplicate-free factors is duplicate-free. -/
theorem nodup_product_of : ∀ (ls : List (List Char)), (∀ p ∈ ls, p.Nodup) →
    (product_of ls).Nodup := by
  intro ls
  induction ls with
  | nil => intro _; simp [product_of]
  | cons p rest ih =>
    intro h
    simp only [product_of]
    rw [List.nodup_flatMap]
    constructor
    · intro c _
      exact (ih (fun q hq => h q (List.mem_cons_of_mem _ hq))).map
        (fun a b hab => by injection hab)
    · have hp : p.Nodup := h p (List.mem_cons_self _ _)
      refine hp.imp ?_
      intro a b hab
      intro w hwa hwb
      simp only [List.mem_map] at hwa hwb
      obtain ⟨wa, -, rfl⟩ := hwa
      obtain ⟨wb, -, h2⟩ := hwb
      exact hab (by injection h2 with h3 _; exact h3.symm)

/-- The ordered generator yields `C^L` tuples. -/
theorem length_iter_product (cs : List Char) (L : Nat) :
    (iter_product cs L).length = cs.length ^ L := by
  rw [iter_product, length_product_of, List.map_replicate, List.prod_replicate]

/-- The ordered generator yields exactly the length-`L` words over `cs`. -/
theorem mem_iter_product (cs : List Char) (L : Nat) (w : List Char) :
    w ∈ iter_product cs L ↔ w.length = L ∧ ∀ c ∈ w, c ∈ cs := by
  have h := mem_product_of_uniform cs (List.replicate L cs) w
    (fun p hp c => by rw [List.eq_of_mem_replicate hp])
  simpa using h

/-- The ordered generator never repeats a tuple. -/
theorem nodup_iter_product (cs : List Char) (L : Nat) (h : cs.Nodup) :
    (iter_product cs L).Nodup :=
  nodup_product_of _ (fun p hp => by rw [List.eq_of_mem_replicate hp]; exact h)

/-- A string is determined by its character list. -/
theorem string_mk_injective : Function.Injective String.mk :=
  fun _ _ h => congrArg String.data h

/-- The ordered generator's candidate strings are exactly the length-`L`
    strings over `cs`. -/
theorem mem_iter_product_strings (cs : List Char) (L : Nat) (s : String) :
    s ∈ iter_product_strings cs L ↔ s.length = L ∧ ∀ c ∈ s.data, c ∈ cs := by
  simp only [iter_product_strings, List.mem_map]
  constructor
  · rintro ⟨w, hw, rfl⟩
    exact (mem_iter_product cs L w).1 hw
  · rintro ⟨hlen, hmem⟩
    exact ⟨s.data, (mem_iter_product cs L s.data).2 ⟨hlen, hmem⟩, String.ext rfl⟩

/-- The ordered generator yields `C^L` candidate strings. -/
theorem length_iter_product_strings (cs : List Char) (L : Nat) :
    (iter_product_strings cs L).length = cs.length ^ L := by
  rw [iter_product_strings, List.length_map, length_iter_product]

/-- With a duplicate-free charset, no candidate string repeats. -/
theorem nodup_iter_product_strings (cs : List Char) (L : Nat) (h : cs.Nodup) :
    (iter_product_strings cs L).Nodup :=
  (nodup_iter_product cs L h).map string_mk_injective

/-- A string none of whose characters is a newline or carriage return is
    unchanged by `rstrip("\n\r")`. -/
theorem rstripNl_eq_self {s : String} (h : ∀ c ∈ s.data, c ≠ '\n' ∧ c ≠ '\r') :
    rstripNl s = s := by
  apply String.ext
  show ((s.data.reverse.dropWhile (fun c => c == '\n' || c == '\r')).reverse) = s.data
  have hdrop : s.data.reverse.dropWhile (fun c => c == '\n' || c == '\r')
      = s.data.reverse := by
    cases hrev : s.data.reverse with
    | nil => rfl
    | cons c t =>
      have hc : c ∈ s.data := by
        rw [← List.mem_reverse, hrev]; exact List.mem_cons_self _ _
      have hcond : (c == '\n' || c == '\r') = false := by
        simp only [Bool.or_eq_false_iff, beq_eq_false_iff_ne, ne_eq]
        exact ⟨(h c hc).1, (h c hc).2⟩
      rw [List.dropWhile_cons, hcond]
      simp
  rw [hdrop, List.reverse_reverse]

/-- Unfolding the scanner's fold: starting from `acc`, it adds exactly the
    stripped decoded lines of the target length. -/
theorem scan_foldl_eq (L : Nat) :
    ∀ (lines : List RawLine) (acc : Finset String),
      (lines.foldl (fun ex raw =>
        let s := rstripNl (decode_ignore raw)
        if s.length = L then insert s ex else ex) acc)
      = acc ∪ ((lines.map (fun r => rstripNl (decode_ignore r))).filter
          (fun s => s.length = L)).toFinset := by
  intro lines
  induction lines with
  | nil => intro acc; simp
  | cons raw rest ih =>
    intro acc
    simp only [List.foldl_cons, List.map_cons, List.filter_cons]
    by_cases hc : (rstripNl (decode_ignore raw)).length = L
    · rw [if_pos hc, ih, if_pos (by simpa using hc), List.toFinset_cons,
        Finset.insert_union, Finset.union_insert]
    · rw [if_neg hc, ih, if_neg (by simpa using hc)]

/-- Characterisation of the scanner on an existing file. -/
theorem scan_some_eq (raws : List RawLine) (L : Nat) :
    scan_existing_by_len (some raws) L
      = ((raws.map (fun r => rstripNl (decode_ignore r))).filter
          (fun s => s.length = L)).toFinset := by
  show (raws.foldl _ ∅) = _
  rw [scan_foldl_eq, Finset.empty_union]

/-- The scanner on engine-written (fully valid) lines decodes them back. -/
theorem decode_linesToRaw (s : String) : decode_ignore (s.data.map some) = s := by
  apply String.ext
  show List.filterMap id (s.data.map some) = s.data
  rw [List.filterMap_map]
  exact List.filterMap_some s.data

/-- The scanner applied to a file of fully-valid text lines. -/
theorem scan_lines_eq (lines : List String) (L : Nat) :
    scan_existing_by_len (some (linesToRaw lines)) L
      = ((lines.map rstripNl).filter (fun s => s.length = L)).toFinset := by
  rw [scan_some_eq, linesToRaw, List.map_map]
  have hco : ((fun r => rstripNl (decode_ignore r)) ∘ fun s : String => s.data.map some)
      = rstripNl := by
    funext s
    show rstripNl (decode_ignore (s.data.map some)) = rstripNl s
    rw [decode_linesToRaw]
  rw [hco]

/-- Membership in the scanner's result on a file of text lines. -/
theorem mem_scan_lines (lines : List String) (L : Nat) (s : String) :
    s ∈ scan_existing_by_len (some (linesToRaw lines)) L
      ↔ (∃ t ∈ lines, rstripNl t = s) ∧ s.length = L := by
  rw [scan_lines_eq]
  simp only [List.mem_toFinset, List.mem_filter, List.mem_map, decide_eq_true_eq]

/-- Updating the statistics map at its own key. -/
theorem updStats_same (f : Nat → LenStats) (L : Nat) (g : LenStats → LenStats) :
    updStats f L g L = g (f L) := by
  simp [updStats]

/-- Updating the statistics map leaves other keys unchanged. -/
theorem updStats_other (f : Nat → LenStats) (L : Nat) (g : LenStats → LenStats)
    (L' : Nat) (h : L' ≠ L) : updStats f L g L' = f L' := by
  simp [updStats, h]

/-- The duplicate branch of one loop iteration. -/
theorem step_cand_of_mem (cs : List Char) (L : Nat) (s : String) (st : EngState)
    (h : s ∈ st.hav) :
    step cs st (.cand L s) = { st with
      total_attempts := st.total_attempts + 1
      total_failed := st.total_failed + 1
      stats := updStats st.stats L (fun t => { t with failed := t.failed + 1 }) } := by
  simp [step, h]

/-- The new-write branch of one loop iteration. -/
theorem step_cand_of_not_mem (cs : List Char) (L : Nat) (s : String) (st : EngState)
    (h : s ∉ st.hav) :
    step cs st (.cand L s) = { st with
      file := st.file ++ [s]
      hav := insert s st.hav
      total_attempts := st.total_attempts + 1
      total_written := st.total_written + 1
      stats := updStats st.stats L
        (fun t => { t with written := t.written + 1, existing := t.existing + 1 }) } := by
  simp [step, h]

/-- Unfolding candidate events on a cons cell. -/
theorem candEvs_cons (L : Nat) (s : String) (rest : List String) :
    candEvs L (s :: rest) = Ev.cand L s :: candEvs L rest := rfl

/-- Master description of the inner enumeration loop over a duplicate-free
    candidate list `ss`: the appended lines are exactly the candidates not
    already in the existing set, in generator order; the existing set gains
    all candidates; attempts grow by the candidate count, written by the
    new-line count and failed by the duplicate count, globally and in the
    per-length entry `L`, which alone is touched. -/
theorem candFold (cs : List Char) (L : Nat) :
    ∀ (ss : List String) (st : EngState), ss.Nodup →
      ((candEvs L ss).foldl (step cs) st).file
          = st.file ++ ss.filter (fun t => t ∉ st.hav)
      ∧ ((candEvs L ss).foldl (step cs) st).hav = st.hav ∪ ss.toFinset
      ∧ ((candEvs L ss).foldl (step cs) st).total_attempts
          = st.total_attempts + ss.length
      ∧ ((candEvs L ss).foldl (step cs) st).total_written
          = st.total_written + (ss.filter (fun t => t ∉ st.hav)).length
      ∧ ((candEvs L ss).foldl (step cs) st).total_failed
          = st.total_failed + (ss.filter (fun t => t ∈ st.hav)).length
      ∧ ((candEvs L ss).foldl (step cs) st).stats L
          = ⟨(st.stats L).possible,
             (st.stats L).existing + (ss.filter (fun t => t ∉ st.hav)).length,
             (st.stats L).written + (ss.filter (fun t => t ∉ st.hav)).length,
             (st.stats L).failed + (ss.filter (fun t => t ∈ st.hav)).length⟩
      ∧ ∀ L', L' ≠ L → ((candEvs L ss).foldl (step cs) st).stats L' = st.stats L' := by
  intro ss
  induction ss with
  | nil =>
    intro st _
    refine ⟨by simp [candEvs], by simp [candEvs], by simp [candEvs],
      by simp [candEvs], by simp [candEvs], ?_, fun L' _ => by simp [candEvs]⟩
    simp only [candEvs, List.map_nil, List.foldl_nil, List.filter_nil,
      List.length_nil, Nat.add_zero]
  | cons s rest ih =>
    intro st hnd
    have hnd' : rest.Nodup := (List.nodup_cons.mp hnd).2
    have hs : s ∉ rest := (List.nodup_cons.mp hnd).1
    rw [candEvs_cons, List.foldl_cons]
    by_cases hmem : s ∈ st.hav
    · rw [step_cand_of_mem cs L s st hmem]
      have h := ih { st with
        total_attempts := st.total_attempts + 1
        total_failed := st.total_failed + 1
        stats := updStats st.stats L (fun t => { t with failed := t.failed + 1 }) } hnd'
      simp only [updStats_same] at h
      obtain ⟨h1, h2, h3, h4, h5, h6, h7⟩ := h
      have hfilt_in : (s :: rest).filter (fun t => t ∈ st.hav)
          = s :: rest.filter (fun t => t ∈ st.hav) := by
        simp [List.filter_cons, hmem]
      have hfilt_out : (s :: rest).filter (fun t => t ∉ st.hav)
          = rest.filter (fun t => t ∉ st.hav) := by
        simp [List.filter_cons, hmem]
      refine ⟨?_, ?_, ?_, ?_, ?_, ?_, ?_⟩
      · rw [h1, hfilt_out]
      · rw [h2, List.toFinset_cons, Finset.union_insert]
        have : s ∈ st.hav ∪ rest.toFinset := Finset.mem_union_left _ hmem
        rw [Finset.insert_eq_self.mpr this]
      · rw [h3]; simp only [List.length_cons]; omega
      · rw [h4, hfilt_out]
      · rw [h5, hfilt_in]; simp only [List.length_cons]; omega
      · rw [h6, hfilt_in, hfilt_out]
        simp only [List.length_cons]
        congr 1
        omega
      · intro L' hL'
        rw [h7 L' hL', updStats_other _ _ _ _ hL']
    · rw [step_cand_of_not_mem cs L s st hmem]
      have h := ih { st with
        file := st.file ++ [s]
        hav := insert s st.hav
        total_attempts := st.total_attempts + 1
        total_written := st.total_written + 1
        stats := updStats st.stats L
          (fun t => { t with written := t.written + 1, existing := t.existing + 1 }) } hnd'
      simp only [updStats_same] at h
      obtain ⟨h1, h2, h3, h4, h5, h6, h7⟩ := h
      have hcong_out : rest.filter (fun t => t ∉ (insert s st.hav : Finset String))
          = rest.filter (fun t => t ∉ st.hav) := by
        refine List.filter_congr ?_
        intro t ht
        have hts : t ≠ s := fun h' => hs (h' ▸ ht)
        simp [Finset.mem_insert, hts]
      have hcong_in : rest.filter (fun t => t ∈ (insert s st.hav : Finset String))
          = rest.filter (fun t => t ∈ st.hav) := by
        refine List.filter_congr ?_
        intro t ht
        have hts : t ≠ s := fun h' => hs (h' ▸ ht)
        simp [Finset.mem_insert, hts]
      have hfilt_in : (s :: rest).filter (fun t => t ∈ st.hav)
          = rest.filter (fun t => t ∈ st.hav) := by
        simp [List.filter_cons, hmem]
      have hfilt_out : (s :: rest).filter (fun t => t ∉ st.hav)
          = s :: rest.filter (fun t => t ∉ st.hav) := by
        simp [List.filter_cons, hmem]
      refine ⟨?_, ?_, ?_, ?_, ?_, ?_, ?_⟩
      · rw [h1, hcong_out, hfilt_out, List.append_assoc, List.singleton_append]
      · rw [h2, List.toFinset_cons, Finset.union_insert, Finset.insert_union]
      · rw [h3]; simp only [List.length_cons]; omega
      · rw [h4, hcong_out, hfilt_out]
        simp only [List.length_cons]; omega
      · rw [h5, hcong_in, hfilt_in]
      · rw [h6, hcong_in, hcong_out, hfilt_in, hfilt_out]
        simp only [List.length_cons]
        congr 1 <;> omega
      · intro L' hL'
        rw [h7 L' hL', updStats_other _ _ _ _ hL']

/-- Unfolding the scan-and-initialise head of a length's processing. -/
theorem step_startLen (cs : List Char) (L : Nat) (st : EngState) :
    step cs st (.startLen L) = { st with
      hav := scan_existing_by_len (some (linesToRaw st.file)) L
      stats := updStats st.stats L
        (fun _ => ⟨cs.length ^ L,
          (scan_existing_by_len (some (linesToRaw st.file)) L).card, 0, 0⟩) } := rfl

/-- Unfolding one length's event block. -/
theorem lenEvents_def (cs : List Char) (L : Nat) :
    lenEvents cs L = Ev.startLen L :: candEvs L (iter_product_strings cs L) := rfl

/-- Candidate strings contain no newline, so stripping leaves them unchanged. -/
theorem rstrip_iter_product (cs : List Char) (hnl : ∀ c ∈ cs, c ≠ '\n' ∧ c ≠ '\r')
    (L : Nat) (s : String) (hsmem : s ∈ iter_product_strings cs L) :
    rstripNl s = s := by
  obtain ⟨-, hchar⟩ := (mem_iter_product_strings cs L s).mp hsmem
  exact rstripNl_eq_self (fun c hc => hnl c (hchar c hc))

/-- A file without lines of stripped length `L` scans to the empty set. -/
theorem scan_eq_empty (lines : List String) (L : Nat)
    (h : ∀ t ∈ lines, (rstripNl t).length ≠ L) :
    scan_existing_by_len (some (linesToRaw lines)) L = ∅ := by
  rw [Finset.eq_empty_iff_forall_not_mem]
  intro s hsmem
  obtain ⟨⟨t, ht, rfl⟩, hlen⟩ := (mem_scan_lines lines L s).mp hsmem
  exact h t ht hlen

/-- Processing a length none of whose strings is in the file yet: the scan is
    empty, every candidate is written, and all `C^L` strings are appended. -/
theorem lenFold_fresh (cs : List Char) (L : Nat) (hcs : cs.Nodup) (st : EngState)
    (hfile : ∀ t ∈ st.file, (rstripNl t).length ≠ L) :
    ((lenEvents cs L).foldl (step cs) st).file = st.file ++ iter_product_strings cs L
    ∧ ((lenEvents cs L).foldl (step cs) st).total_attempts
        = st.total_attempts + cs.length ^ L
    ∧ ((lenEvents cs L).foldl (step cs) st).total_written
        = st.total_written + cs.length ^ L
    ∧ ((lenEvents cs L).foldl (step cs) st).total_failed = st.total_failed
    ∧ ((lenEvents cs L).foldl (step cs) st).stats L
        = ⟨cs.length ^ L, cs.length ^ L, cs.length ^ L, 0⟩
    ∧ ∀ L', L' ≠ L → ((lenEvents cs L).foldl (step cs) st).stats L' = st.stats L' := by
  have hscan := scan_eq_empty st.file L hfile
  rw [lenEvents_def, List.foldl_cons, step_startLen, hscan, Finset.card_empty]
  have h := candFold cs L (iter_product_strings cs L)
    { st with
      hav := (∅ : Finset String)
      stats := updStats st.stats L (fun _ => ⟨cs.length ^ L, 0, 0, 0⟩) }
    (nodup_iter_product_strings cs L hcs)
  simp only [updStats_same] at h
  obtain ⟨h1, h2, h3, h4, h5, h6, h7⟩ := h
  have hout : (iter_product_strings cs L).filter
      (fun t => t ∉ (∅ : Finset String)) = iter_product_strings cs L := by
    apply List.filter_eq_self.mpr
    intro a _
    simp
  have hin : (iter_product_strings cs L).filter
      (fun t => t ∈ (∅ : Finset String)) = [] := by
    apply List.filter_eq_nil_iff.mpr
    intro a _
    simp
  refine ⟨?_, ?_, ?_, ?_, ?_, ?_⟩
  · rw [h1, hout]
  · rw [h3, length_iter_product_strings]
  · rw [h4, hout, length_iter_product_strings]
  · rw [h5, hin]; rfl
  · rw [h6, hout, hin]
    simp [length_iter_product_strings]
  · intro L' hL'
    rw [h7 L' hL', updStats_other _ _ _ _ hL']

/-- Processing a length all of whose strings are already lines of the file:
    nothing is written, every candidate counts as failed. -/
theorem lenFold_saturated (cs : List Char) (L : Nat) (hcs : cs.Nodup)
    (hnl : ∀ c ∈ cs, c ≠ '\n' ∧ c ≠ '\r') (st : EngState)
    (hfull : ∀ s ∈ iter_product_strings cs L, s ∈ st.file) :
    ((lenEvents cs L).foldl (step cs) st).file = st.file
    ∧ ((lenEvents cs L).foldl (step cs) st).total_attempts
        = st.total_attempts + cs.length ^ L
    ∧ ((lenEvents cs L).foldl (step cs) st).total_written = st.total_written
    ∧ ((lenEvents cs L).foldl (step cs) st).total_failed
        = st.total_failed + cs.length ^ L
    ∧ ((lenEvents cs L).foldl (step cs) st).stats L
        = ⟨cs.length ^ L,
           (scan_existing_by_len (some (linesToRaw st.file)) L).card, 0,
           cs.length ^ L⟩
    ∧ ∀ L', L' ≠ L → ((lenEvents cs L).foldl (step cs) st).stats L' = st.stats L' := by
  have hsub : ∀ s ∈ iter_product_strings cs L,
      s ∈ scan_existing_by_len (some (linesToRaw st.file)) L := by
    intro s hsmem
    refine (mem_scan_lines st.file L s).mpr
      ⟨⟨s, hfull s hsmem, rstrip_iter_product cs hnl L s hsmem⟩, ?_⟩
    exact ((mem_iter_product_strings cs L s).mp hsmem).1
  rw [lenEvents_def, List.foldl_cons, step_startLen]
  have h := candFold cs L (iter_product_strings cs L)
    { st with
      hav := scan_existing_by_len (some (linesToRaw st.file)) L
      stats := updStats st.stats L
        (fun _ => ⟨cs.length ^ L,
          (scan_existing_by_len (some (linesToRaw st.file)) L).card, 0, 0⟩) }
    (nodup_iter_product_strings cs L hcs)
  simp only [updStats_same] at h
  obtain ⟨h1, h2, h3, h4, h5, h6, h7⟩ := h
  have hout : (iter_product_strings cs L).filter
      (fun t => t ∉ scan_existing_by_len (some (linesToRaw st.file)) L) = [] := by
    apply List.filter_eq_nil_iff.mpr
    intro a ha
    simp [hsub a ha]
  have hin : (iter_product_strings cs L).filter
      (fun t => t ∈ scan_existing_by_len (some (linesToRaw st.file)) L)
      = iter_product_strings cs L := by
    apply List.filter_eq_self.mpr
    intro a ha
    simp [hsub a ha]
  refine ⟨?_, ?_, ?_, ?_, ?_, ?_⟩
  · rw [h1, hout, List.append_nil]
  · rw [h3, length_iter_product_strings]
  · rw [h4, hout]; rfl
  · rw [h5, hin, length_iter_product_strings]
  · rw [h6, hout, hin]
    simp [length_iter_product_strings]
  · intro L' hL'
    rw [h7 L' hL', updStats_other _ _ _ _ hL']

/-- The file content produced by a complete fresh run over the lengths `Ls`. -/
def fullFile (cs : List Char) (Ls : List Nat) : List String :=
  Ls.flatMap (iter_product_strings cs)

/-- Lines of a fresh-run file: length in `Ls` and characters in `cs`. -/
theorem mem_fullFile (cs : List Char) (Ls : List Nat) (s : String) :
    s ∈ fullFile cs Ls ↔ s.length ∈ Ls ∧ ∀ c ∈ s.data, c ∈ cs := by
  simp only [fullFile, List.mem_flatMap]
  constructor
  · rintro ⟨L, hL, hs⟩
    obtain ⟨hlen, hchar⟩ := (mem_iter_product_strings cs L s).mp hs
    exact ⟨hlen ▸ hL, hchar⟩
  · rintro ⟨hlen, hchar⟩
    exact ⟨s.length, hlen, (mem_iter_product_strings cs s.length s).2 ⟨rfl, hchar⟩⟩

/-- A full fresh run over lengths `Ls` (no string of any of these lengths in
    the starting file): the file gains exactly all strings of each length,
    attempts and written both grow by `Σ C^L`, no duplicates are hit, and each
    processed length ends with complete statistics. -/
theorem runFold_fresh (cs : List Char) (hcs : cs.Nodup)
    (hnl : ∀ c ∈ cs, c ≠ '\n' ∧ c ≠ '\r') :
    ∀ (Ls : List Nat) (st : EngState), Ls.Nodup →
      (∀ t ∈ st.file, rstripNl t = t) → (∀ t ∈ st.file, t.length ∉ Ls) →
      ((Ls.flatMap (lenEvents cs)).foldl (step cs) st).file
          = st.file ++ fullFile cs Ls
      ∧ ((Ls.flatMap (lenEvents cs)).foldl (step cs) st).total_attempts
          = st.total_attempts + (Ls.map (fun L => cs.length ^ L)).sum
      ∧ ((Ls.flatMap (lenEvents cs)).foldl (step cs) st).total_written
          = st.total_written + (Ls.map (fun L => cs.length ^ L)).sum
      ∧ ((Ls.flatMap (lenEvents cs)).foldl (step cs) st).total_failed
          = st.total_failed
      ∧ (∀ L ∈ Ls, ((Ls.flatMap (lenEvents cs)).foldl (step cs) st).stats L
          = ⟨cs.length ^ L, cs.length ^ L, cs.length ^ L, 0⟩)
      ∧ ∀ L, L ∉ Ls → ((Ls.flatMap (lenEvents cs)).foldl (step cs) st).stats L
          = st.stats L := by
  intro Ls
  induction Ls with
  | nil =>
    intro st _ _ _
    exact ⟨by simp [fullFile], by simp, by simp, by simp,
      by intro L hL; simp at hL, fun L _ => by simp⟩
  | cons L0 T ih =>
    intro st hnd hstrip hlen
    have hndT : T.Nodup := (List.nodup_cons.mp hnd).2
    have hL0T : L0 ∉ T := (List.nodup_cons.mp hnd).1
    rw [List.flatMap_cons, List.foldl_append]
    have hfile0 : ∀ t ∈ st.file, (rstripNl t).length ≠ L0 := by
      intro t ht
      rw [hstrip t ht]
      intro h
      exact hlen t ht (by rw [h]; exact List.mem_cons_self _ _)
    obtain ⟨b1, b2, b3, b4, b5, b6⟩ := lenFold_fresh cs L0 hcs st hfile0
    have hstrip1 : ∀ t ∈ ((lenEvents cs L0).foldl (step cs) st).file,
        rstripNl t = t := by
      rw [b1]
      intro t ht
      rcases List.mem_append.mp ht with h | h
      · exact hstrip t h
      · exact rstrip_iter_product cs hnl L0 t h
    have hlen1 : ∀ t ∈ ((lenEvents cs L0).foldl (step cs) st).file,
        t.length ∉ T := by
      rw [b1]
      intro t ht
      rcases List.mem_append.mp ht with h | h
      · exact fun hmem => hlen t h (List.mem_cons_of_mem _ hmem)
      · rw [((mem_iter_product_strings cs L0 t).mp h).1]
        exact hL0T
    obtain ⟨c1, c2, c3, c4, c5, c6⟩ :=
      ih ((lenEvents cs L0).foldl (step cs) st) hndT hstrip1 hlen1
    refine ⟨?_, ?_, ?_, ?_, ?_, ?_⟩
    · rw [c1, b1]
      simp only [fullFile, List.flatMap_cons, List.append_assoc]
    · rw [c2, b2, List.map_cons, List.sum_cons]
      omega
    · rw [c3, b3, List.map_cons, List.sum_cons]
      omega
    · rw [c4, b4]
    · intro L hL
      rcases List.mem_cons.mp hL with rfl | hLT
      · rw [c6 L hL0T, b5]
      · exact c5 L hLT
    · intro L hL
      have hL0 : L ≠ L0 := fun h => hL (by rw [h]; exact List.mem_cons_self _ _)
      have hLT : L ∉ T := fun h => hL (List.mem_cons_of_mem _ h)
      rw [c6 L hLT, b6 L hL0]

/-- A full run over lengths `Ls` whose strings are all already in the file:
    the file is unchanged, nothing is written, and every candidate of every
    length counts as failed. -/
theorem runFold_saturated (cs : List Char) (hcs : cs.Nodup)
    (hnl : ∀ c ∈ cs, c ≠ '\n' ∧ c ≠ '\r') :
    ∀ (Ls : List Nat) (st : EngState), Ls.Nodup →
      (∀ L ∈ Ls, ∀ s ∈ iter_product_strings cs L, s ∈ st.file) →
      ((Ls.flatMap (lenEvents cs)).foldl (step cs) st).file = st.file
      ∧ ((Ls.flatMap (lenEvents cs)).foldl (step cs) st).total_attempts
          = st.total_attempts + (Ls.map (fun L => cs.length ^ L)).sum
      ∧ ((Ls.flatMap (lenEvents cs)).foldl (step cs) st).total_written
          = st.total_written
      ∧ ((Ls.flatMap (lenEvents cs)).foldl (step cs) st).total_failed
          = st.total_failed + (Ls.map (fun L => cs.length ^ L)).sum
      ∧ (∀ L ∈ Ls,
          (((Ls.flatMap (lenEvents cs)).foldl (step cs) st).stats L).written = 0
          ∧ (((Ls.flatMap (lenEvents cs)).foldl (step cs) st).stats L).failed
              = cs.length ^ L)
      ∧ ∀ L, L ∉ Ls → ((Ls.flatMap (lenEvents cs)).foldl (step cs) st).stats L
          = st.stats L := by
  intro Ls
  induction Ls with
  | nil =>
    intro st _ _
    exact ⟨by simp, by simp, by simp, by simp,
      by intro L hL; simp at hL, fun L _ => by simp⟩
  | cons L0 T ih =>
    intro st hnd hfull
    have hndT : T.Nodup := (List.nodup_cons.mp hnd).2
    have hL0T : L0 ∉ T := (List.nodup_cons.mp hnd).1
    rw [List.flatMap_cons, List.foldl_append]
    obtain ⟨b1, b2, b3, b4, b5, b6⟩ := lenFold_saturated cs L0 hcs hnl st
      (hfull L0 (List.mem_cons_self _ _))
    have hfull1 : ∀ L ∈ T, ∀ s ∈ iter_product_strings cs L,
        s ∈ ((lenEvents cs L0).foldl (step cs) st).file := by
      rw [b1]
      intro L hLT s hsmem
      exact hfull L (List.mem_cons_of_mem _ hLT) s hsmem
    obtain ⟨c1, c2, c3, c4, c5, c6⟩ :=
      ih ((lenEvents cs L0).foldl (step cs) st) hndT hfull1
    refine ⟨?_, ?_, ?_, ?_, ?_, ?_⟩
    · rw [c1, b1]
    · rw [c2, b2, List.map_cons, List.sum_cons]
      omega
    · rw [c3, b3]
    · rw [c4, b4, List.map_cons, List.sum_cons]
      omega
    · intro L hL
      rcases List.mem_cons.mp hL with rfl | hLT
      · rw [c6 L hL0T, b5]
        exact ⟨rfl, rfl⟩
      · exact c5 L hLT
    · intro L hL
      have hL0 : L ≠ L0 := fun h => hL (by rw [h]; exact List.mem_cons_self _ _)
      have hLT : L ∉ T := fun h => hL (List.mem_cons_of_mem _ h)
      rw [c6 L hLT, b6 L hL0]

/-- Unfolding the whole run to its per-length blocks. -/
theorem runEngine_def (cs : List Char) (min_len max_len : Nat) (file : List String) :
    runEngine cs min_len max_len file
      = ((List.range' min_len (max_len + 1 - min_len)).flatMap (lenEvents cs)).foldl
          (step cs) (initState file) := rfl

/-- A fresh-run file has no lines of a length outside the processed range. -/
theorem fullFile_filter_of_not_mem (cs : List Char) (L : Nat) :
    ∀ Ls, L ∉ Ls → (fullFile cs Ls).filter (fun s => s.length = L) = [] := by
  intro Ls
  induction Ls with
  | nil => intro _; simp [fullFile]
  | cons L0 T ih =>
    intro h
    simp only [fullFile, List.flatMap_cons, List.filter_append]
    have hblk : (iter_product_strings cs L0).filter (fun s => s.length = L) = [] := by
      apply List.filter_eq_nil_iff.mpr
      intro s hsm
      have hl0 := ((mem_iter_product_strings cs L0 s).mp hsm).1
      simp only [decide_eq_true_eq]
      rw [hl0]
      exact fun hh => h (by rw [← hh]; exact List.mem_cons_self _ _)
    have htail : (fullFile cs T).filter (fun s => s.length = L) = [] :=
      ih (fun hT => h (List.mem_cons_of_mem _ hT))
    rw [hblk]
    exact htail

/-- In a fresh-run file over distinct lengths, the lines of length `L` are
    exactly that length's generator output. -/
theorem fullFile_filter (cs : List Char) (L : Nat) :
    ∀ Ls, Ls.Nodup → L ∈ Ls →
      (fullFile cs Ls).filter (fun s => s.length = L)
        = iter_product_strings cs L := by
  intro Ls
  induction Ls with
  | nil => intro _ h; simp at h
  | cons L0 T ih =>
    intro hnd hL
    simp only [fullFile, List.flatMap_cons, List.filter_append]
    rcases List.mem_cons.mp hL with rfl | hLT
    · have hT : L ∉ T := (List.nodup_cons.mp hnd).1
      have := fullFile_filter_of_not_mem cs L T hT
      rw [fullFile] at this
      rw [this, List.append_nil]
      apply List.filter_eq_self.mpr
      intro s hsm
      simp [((mem_iter_product_strings cs L s).mp hsm).1]
    · have hne : L ≠ L0 := by
        intro h
        rw [h] at hLT
        exact (List.nodup_cons.mp hnd).1 hLT
      have hblk : (iter_product_strings cs L0).filter (fun s => s.length = L) = [] := by
        apply List.filter_eq_nil_iff.mpr
        intro s hsm
        have hl0 := ((mem_iter_product_strings cs L0 s).mp hsm).1
        simp only [decide_eq_true_eq]
        rw [hl0]
        exact fun hh => hne hh.symm
      have htail := ih (List.nodup_cons.mp hnd).2 hLT
      rw [fullFile] at htail
      rw [hblk, htail, List.nil_append]

/-- C1: for every length `L` in `[min_len, max_len]`, an uninterrupted run
    from an empty output file ends with exactly `C^L` lines of length `L` in
    the file and an ExistingSet of size `C^L` recorded for `L`
    (`per_len_stats[L]["existing"]`); and for alphabet `{a, b}` with
    `min = max = 2` the output is exactly `{aa, ab, ba, bb}` with
    `written = 4`, `failed = 0`, `attempts = 4`. -/
theorem C1_completeness :
    (∀ (cs : List Char) (min_len max_len L : Nat),
        cs.Nodup → (∀ c ∈ cs, c ≠ '\n' ∧ c ≠ '\r') →
        min_len ≤ L → L ≤ max_len →
        ((runEngine cs min_len max_len []).file.filter
            (fun s => s.length = L)).length = cs.length ^ L
        ∧ ((runEngine cs min_len max_len []).stats L).existing = cs.length ^ L)
    ∧ ((runEngine ['a', 'b'] 2 2 []).file.toFinset
          = ({"aa", "ab", "ba", "bb"} : Finset String)
       ∧ (runEngine ['a', 'b'] 2 2 []).file.Nodup
       ∧ (runEngine ['a', 'b'] 2 2 []).total_written = 4
       ∧ (runEngine ['a', 'b'] 2 2 []).total_failed = 0
       ∧ (runEngine ['a', 'b'] 2 2 []).total_attempts = 4) := by
  constructor
  · intro cs minL maxL L hcs hnl hmin hmax
    have hLs : L ∈ List.range' minL (maxL + 1 - minL) := by
      rw [List.mem_range'_1]
      omega
    have hnd := List.nodup_range' minL (maxL + 1 - minL)
    obtain ⟨f1, f2, f3, f4, f5, f6⟩ := runFold_fresh cs hcs hnl
      (List.range' minL (maxL + 1 - minL)) (initState [])
      hnd (by intro t ht; simp [initState] at ht)
      (by intro t ht; simp [initState] at ht)
    rw [runEngine_def]
    constructor
    · rw [f1]
      show ((([] : List String) ++ fullFile cs _).filter _).length = _
      rw [List.nil_append,
        fullFile_filter cs L (List.range' minL (maxL + 1 - minL)) hnd hLs,
        length_iter_product_strings]
    · rw [f5 L hLs]
  · refine ⟨by decide, by decide, by decide, by decide, by decide⟩

/-- Witness for C1 at a concrete instance: alphabet `{a, b}`, lengths `1..2`,
    checked at `L = 2`. -/
theorem C1_completeness_witness :
    ((runEngine ['a', 'b'] 1 2 []).file.filter (fun s => s.length = 2)).length = 4
    ∧ ((runEngine ['a', 'b'] 1 2 []).stats 2).existing = 4 :=
  C1_completeness.1 ['a', 'b'] 1 2 2 (by decide) (by decide) (by decide) (by decide)

/-- Projections of the initial state. -/
theorem initState_file (f : List String) : (initState f).file = f := rfl

/-- The write counter starts at zero. -/
theorem initState_written (f : List String) : (initState f).total_written = 0 := rfl

/-- The failure counter starts at zero. -/
theorem initState_failed (f : List String) : (initState f).total_failed = 0 := rfl

/-- The attempt counter starts at zero. -/
theorem initState_attempts (f : List String) : (initState f).total_attempts = 0 := rfl

/-- C3: a second run with the same configuration over the file produced by a
    completed run leaves the file unchanged (so the content equals that of a
    single uninterrupted run, in the same order), writes zero new lines for
    every completed length, and counts every candidate as failed; for alphabet
    `{a, b}` with `min = max = 2`: `written = 0`, `failed = 4`, `attempts = 4`
    and the file still has exactly 4 lines. -/
theorem C3_idempotent_resume :
    (∀ (cs : List Char) (min_len max_len : Nat),
        cs.Nodup → (∀ c ∈ cs, c ≠ '\n' ∧ c ≠ '\r') →
        (runEngine cs min_len max_len
            (runEngine cs min_len max_len []).file).file
          = (runEngine cs min_len max_len []).file
        ∧ (runEngine cs min_len max_len
            (runEngine cs min_len max_len []).file).total_written = 0
        ∧ (runEngine cs min_len max_len
            (runEngine cs min_len max_len []).file).total_failed
          = ((List.range' min_len (max_len + 1 - min_len)).map
              (fun L => cs.length ^ L)).sum
        ∧ (runEngine cs min_len max_len
            (runEngine cs min_len max_len []).file).total_attempts
          = ((List.range' min_len (max_len + 1 - min_len)).map
              (fun L => cs.length ^ L)).sum
        ∧ ∀ L, min_len ≤ L → L ≤ max_len →
            ((runEngine cs min_len max_len
                (runEngine cs min_len max_len []).file).stats L).written = 0)
    ∧ ((runEngine ['a', 'b'] 2 2 (runEngine ['a', 'b'] 2 2 []).file).total_written = 0
       ∧ (runEngine ['a', 'b'] 2 2 (runEngine ['a', 'b'] 2 2 []).file).total_failed = 4
       ∧ (runEngine ['a', 'b'] 2 2 (runEngine ['a', 'b'] 2 2 []).file).total_attempts = 4
       ∧ (runEngine ['a', 'b'] 2 2 (runEngine ['a', 'b'] 2 2 []).file).file.length = 4) := by
  constructor
  · intro cs minL maxL hcs hnl
    have hnd := List.nodup_range' minL (maxL + 1 - minL)
    obtain ⟨f1, -, -, -, -, -⟩ := runFold_fresh cs hcs hnl
      (List.range' minL (maxL + 1 - minL)) (initState [])
      hnd (by intro t ht; simp [initState] at ht)
      (by intro t ht; simp [initState] at ht)
    have hfirst : (runEngine cs minL maxL []).file
        = fullFile cs (List.range' minL (maxL + 1 - minL)) := by
      rw [runEngine_def, f1]
      show ([] : List String) ++ _ = _
      rw [List.nil_append]
    have hsat : ∀ L ∈ List.range' minL (maxL + 1 - minL),
        ∀ s ∈ iter_product_strings cs L,
          s ∈ (initState (fullFile cs (List.range' minL (maxL + 1 - minL)))).file := by
      intro L hL s hsmem
      show s ∈ fullFile cs _
      rw [fullFile]
      exact List.mem_flatMap.mpr ⟨L, hL, hsmem⟩
    obtain ⟨g1, g2, g3, g4, g5, g6⟩ := runFold_saturated cs hcs hnl
      (List.range' minL (maxL + 1 - minL))
      (initState (fullFile cs (List.range' minL (maxL + 1 - minL)))) hnd hsat
    refine ⟨?_, ?_, ?_, ?_, ?_⟩
    · rw [hfirst, runEngine_def, g1, initState_file]
    · rw [hfirst, runEngine_def, g3, initState_written]
    · rw [hfirst, runEngine_def, g4, initState_failed, Nat.zero_add]
    · rw [hfirst, runEngine_def, g2, initState_attempts, Nat.zero_add]
    · intro L hmin hmax
      rw [hfirst, runEngine_def]
      exact (g5 L (by rw [List.mem_range'_1]; omega)).1
  · exact ⟨by decide, by decide, by decide, by decide⟩

/-- Witness for C3 at a concrete instance with lengths `1..2`. -/
theorem C3_idempotent_resume_witness :
    (runEngine ['a', 'b'] 1 2 (runEngine ['a', 'b'] 1 2 []).file).file
        = (runEngine ['a', 'b'] 1 2 []).file
    ∧ (runEngine ['a', 'b'] 1 2 (runEngine ['a', 'b'] 1 2 []).file).total_written = 0 :=
  ⟨(C3_idempotent_resume.1 ['a', 'b'] 1 2 (by decide) (by decide)).1,
   (C3_idempotent_resume.1 ['a', 'b'] 1 2 (by decide) (by decide)).2.1⟩

/-- Whether an event updates the statistics entry of length `L`. -/
def touches (L : Nat) : Ev → Prop
  | .startLen l => l = L
  | .cand l _ => l = L

/-- Events of one length's block only touch that length's entry. -/
theorem touches_lenEvents (cs : List Char) (l L : Nat) (ev : Ev)
    (hev : ev ∈ lenEvents cs l) (ht : touches L ev) : l = L := by
  rw [lenEvents_def] at hev
  rcases List.mem_cons.mp hev with rfl | h
  · exact ht
  · simp only [candEvs, List.mem_map] at h
    obtain ⟨s, -, rfl⟩ := h
    exact ht

/-- Folding over events that never touch `L` leaves its statistics alone. -/
theorem stats_untouched (cs : List Char) (L : Nat) :
    ∀ (evs : List Ev) (st : EngState), (∀ ev ∈ evs, ¬ touches L ev) →
      ((evs.foldl (step cs) st).stats L) = st.stats L := by
  intro evs
  induction evs with
  | nil => intro st _; rfl
  | cons ev rest ih =>
    intro st h
    rw [List.foldl_cons, ih _ (fun e he => h e (List.mem_cons_of_mem _ he))]
    have hev := h ev (List.mem_cons_self _ _)
    cases ev with
    | startLen l =>
      rw [step_startLen]
      exact updStats_other st.stats l
        (fun _ => ⟨cs.length ^ l,
          (scan_existing_by_len (some (linesToRaw st.file)) l).card, 0, 0⟩) L
        (fun hh => hev hh.symm)
    | cand l s =>
      by_cases hmem : s ∈ st.hav
      · rw [step_cand_of_mem _ _ _ _ hmem]
        exact updStats_other st.stats l
          (fun t => { t with failed := t.failed + 1 }) L (fun hh => hev hh.symm)
      · rw [step_cand_of_not_mem _ _ _ _ hmem]
        exact updStats_other st.stats l
          (fun t => { t with written := t.written + 1, existing := t.existing + 1 })
          L (fun hh => hev hh.symm)

/-- Each loop iteration bumps attempts once and exactly one of
    written/failed, so the global balance is preserved by any event list. -/
theorem conservation_foldl (cs : List Char) :
    ∀ (evs : List Ev) (st : EngState),
      st.total_attempts = st.total_written + st.total_failed →
      (evs.foldl (step cs) st).total_attempts
        = (evs.foldl (step cs) st).total_written
          + (evs.foldl (step cs) st).total_failed := by
  intro evs
  induction evs with
  | nil => intro st h; exact h
  | cons ev rest ih =>
    intro st h
    rw [List.foldl_cons]
    apply ih
    cases ev with
    | startLen l => exact h
    | cand l s =>
      by_cases hmem : s ∈ st.hav
      · rw [step_cand_of_mem _ _ _ _ hmem]
        show st.total_attempts + 1 = st.total_written + (st.total_failed + 1)
        omega
      · rw [step_cand_of_not_mem _ _ _ _ hmem]
        show st.total_attempts + 1 = st.total_written + 1 + st.total_failed
        omega

/-- Per-length balance over any candidate list: written + failed grows by
    exactly the number of candidates attempted. -/
theorem candFold_perLen (cs : List Char) (L : Nat) :
    ∀ (ss : List String) (st : EngState),
      (((candEvs L ss).foldl (step cs) st).stats L).written
        + (((candEvs L ss).foldl (step cs) st).stats L).failed
        = (st.stats L).written + (st.stats L).failed + ss.length := by
  intro ss
  induction ss with
  | nil => intro st; simp [candEvs]
  | cons s rest ih =>
    intro st
    rw [candEvs_cons, List.foldl_cons]
    by_cases hmem : s ∈ st.hav
    · rw [step_cand_of_mem _ _ _ _ hmem, ih]
      simp only [updStats_same, List.length_cons]
      omega
    · rw [step_cand_of_not_mem _ _ _ _ hmem, ih]
      simp only [updStats_same, List.length_cons]
      omega

/-- After a full ordered block for length `L`, written + failed equals the
    number of generated candidates, `C^L`. -/
theorem lenFold_perLen (cs : List Char) (L : Nat) (st : EngState) :
    (((lenEvents cs L).foldl (step cs) st).stats L).written
      + (((lenEvents cs L).foldl (step cs) st).stats L).failed
      = cs.length ^ L := by
  rw [lenEvents_def, List.foldl_cons, candFold_perLen, step_startLen]
  simp only [updStats_same, length_iter_product_strings]
  omega

/-- Per-length balance after any sequence of completed blocks over distinct
    lengths. -/
theorem runBlocks_perLen (cs : List Char) :
    ∀ (Ls : List Nat) (st : EngState), Ls.Nodup →
      ∀ L' ∈ Ls,
        (((Ls.flatMap (lenEvents cs)).foldl (step cs) st).stats L').written
          + (((Ls.flatMap (lenEvents cs)).foldl (step cs) st).stats L').failed
          = cs.length ^ L' := by
  intro Ls
  induction Ls with
  | nil => intro st _ L' h; simp at h
  | cons L0 T ih =>
    intro st hnd L' hL'
    rw [List.flatMap_cons, List.foldl_append]
    rcases List.mem_cons.mp hL' with rfl | hT
    · have huntouched : ∀ ev ∈ T.flatMap (lenEvents cs), ¬ touches L' ev := by
        intro ev hev ht
        obtain ⟨l, hl, hevl⟩ := List.mem_flatMap.mp hev
        have := touches_lenEvents cs l L' ev hevl ht
        exact (List.nodup_cons.mp hnd).1 (this ▸ hl)
      rw [stats_untouched cs L' _ _ huntouched]
      exact lenFold_perLen cs L' st
    · exact ih _ (List.nodup_cons.mp hnd).2 L' hT

/-- The scan step leaves other lengths' statistics unchanged. -/
theorem step_startLen_stats_other (cs : List Char) (L : Nat) (st : EngState)
    (L' : Nat) (h : L' ≠ L) : (step cs st (.startLen L)).stats L' = st.stats L' :=
  updStats_other st.stats L
    (fun _ => ⟨cs.length ^ L,
      (scan_existing_by_len (some (linesToRaw st.file)) L).card, 0, 0⟩) L' h

/-- C4: at every checkpoint of a run (any number of completed length blocks,
    then the scan of the current length `L` and any prefix `ss` of its
    candidates), `total_attempts = total_written + total_failed` holds
    globally, the current length satisfies `written + failed = number of
    candidates attempted`, and every completed length `L'` satisfies
    `written + failed = C^L'`. -/
theorem C4_conservation (cs : List Char) (file0 : List String)
    (doneLs : List Nat) (L : Nat) (ss : List String)
    (hnd : doneLs.Nodup) (hL : L ∉ doneLs) :
    ((doneLs.flatMap (lenEvents cs) ++ Ev.startLen L :: candEvs L ss).foldl
        (step cs) (initState file0)).total_attempts
      = ((doneLs.flatMap (lenEvents cs) ++ Ev.startLen L :: candEvs L ss).foldl
          (step cs) (initState file0)).total_written
        + ((doneLs.flatMap (lenEvents cs) ++ Ev.startLen L :: candEvs L ss).foldl
            (step cs) (initState file0)).total_failed
    ∧ (((doneLs.flatMap (lenEvents cs) ++ Ev.startLen L :: candEvs L ss).foldl
          (step cs) (initState file0)).stats L).written
        + (((doneLs.flatMap (lenEvents cs) ++ Ev.startLen L :: candEvs L ss).foldl
            (step cs) (initState file0)).stats L).failed
        = ss.length
    ∧ ∀ L' ∈ doneLs,
        (((doneLs.flatMap (lenEvents cs) ++ Ev.startLen L :: candEvs L ss).foldl
            (step cs) (initState file0)).stats L').written
          + (((doneLs.flatMap (lenEvents cs) ++ Ev.startLen L :: candEvs L ss).foldl
              (step cs) (initState file0)).stats L').failed
          = cs.length ^ L' := by
  refine ⟨?_, ?_, ?_⟩
  · exact conservation_foldl cs _ _ rfl
  · rw [List.foldl_append, List.foldl_cons, candFold_perLen, step_startLen]
    simp only [updStats_same]
    omega
  · intro L' hL'
    have hne : L ≠ L' := fun h => hL (h ▸ hL')
    rw [List.foldl_append, List.foldl_cons]
    have huntouched : ∀ ev ∈ candEvs L ss, ¬ touches L' ev := by
      intro ev hev ht
      simp only [candEvs, List.mem_map] at hev
      obtain ⟨s, -, rfl⟩ := hev
      exact hne ht
    rw [stats_untouched cs L' _ _ huntouched,
      step_startLen_stats_other cs L _ L' (fun h => hne h.symm)]
    exact runBlocks_perLen cs doneLs (initState file0) hnd L' hL'

/-- Witness for C4 at a concrete checkpoint: length 1 completed, length 2
    mid-processing after one candidate. -/
theorem C4_conservation_witness :
    ((([1] : List Nat).flatMap (lenEvents ['a']) ++ Ev.startLen 2
        :: candEvs 2 ["aa"]).foldl (step ['a']) (initState [])).total_attempts
      = ((([1] : List Nat).flatMap (lenEvents ['a']) ++ Ev.startLen 2
          :: candEvs 2 ["aa"]).foldl (step ['a']) (initState [])).total_written
        + ((([1] : List Nat).flatMap (lenEvents ['a']) ++ Ev.startLen 2
            :: candEvs 2 ["aa"]).foldl (step ['a']) (initState [])).total_failed :=
  (C4_conservation ['a'] [] [1] 2 ["aa"] (by decide) (by decide)).1

/-- On a file whose lines carry no trailing newline characters, the scan for
    `L` is exactly the set of length-`L` lines. -/
theorem scan_lines_of_clean (lines : List String) (L : Nat)
    (h : ∀ t ∈ lines, rstripNl t = t) :
    scan_existing_by_len (some (linesToRaw lines)) L
      = (lines.filter (fun s => s.length = L)).toFinset := by
  rw [scan_lines_eq]
  rw [List.map_congr_left (fun a ha => (h a ha).trans rfl :
    ∀ a ∈ lines, rstripNl a = id a), List.map_id]

/-- Scanning distributes over appending lines to the file. -/
theorem scan_lines_append (a b : List String) (L : Nat) :
    scan_existing_by_len (some (linesToRaw (a ++ b))) L
      = scan_existing_by_len (some (linesToRaw a)) L
        ∪ scan_existing_by_len (some (linesToRaw b)) L := by
  simp [scan_lines_eq, List.filter_append, List.toFinset_append]

/-- Scanning a block of clean length-`L` lines returns them all. -/
theorem scan_lines_of_full (ws : List String) (L : Nat)
    (h : ∀ s ∈ ws, rstripNl s = s ∧ s.length = L) :
    scan_existing_by_len (some (linesToRaw ws)) L = ws.toFinset := by
  rw [scan_lines_of_clean ws L (fun t ht => (h t ht).1)]
  congr 1
  apply List.filter_eq_self.mpr
  intro a ha
  simp [(h a ha).2]

/-- Invariant of one (possibly partial) length block starting from a clean
    duplicate-free file: the file stays clean and duplicate-free and the
    in-memory existing set is exactly the scan of the current file content. -/
theorem lenFold_partial_clean (cs : List Char)
    (hnl : ∀ c ∈ cs, c ≠ '\n' ∧ c ≠ '\r') (L : Nat) (ss : List String)
    (hss : ss.Nodup) (hssmem : ∀ s ∈ ss, s ∈ iter_product_strings cs L)
    (st : EngState) (hclean : ∀ t ∈ st.file, rstripNl t = t)
    (hnd : st.file.Nodup) :
    (∀ t ∈ ((Ev.startLen L :: candEvs L ss).foldl (step cs) st).file, rstripNl t = t)
    ∧ ((Ev.startLen L :: candEvs L ss).foldl (step cs) st).file.Nodup
    ∧ ((Ev.startLen L :: candEvs L ss).foldl (step cs) st).hav
        = scan_existing_by_len
            (some (linesToRaw ((Ev.startLen L :: candEvs L ss).foldl (step cs) st).file))
            L := by
  rw [List.foldl_cons, step_startLen]
  have h := candFold cs L ss
    { st with
      hav := scan_existing_by_len (some (linesToRaw st.file)) L
      stats := updStats st.stats L
        (fun _ => ⟨cs.length ^ L,
          (scan_existing_by_len (some (linesToRaw st.file)) L).card, 0, 0⟩) } hss
  obtain ⟨h1, h2, -, -, -, -, -⟩ := h
  have hws : ∀ s ∈ ss.filter
      (fun t => t ∉ scan_existing_by_len (some (linesToRaw st.file)) L),
      s ∈ iter_product_strings cs L := by
    intro s hsf
    exact hssmem s (List.mem_filter.mp hsf).1
  have hwsprop : ∀ s ∈ ss.filter
      (fun t => t ∉ scan_existing_by_len (some (linesToRaw st.file)) L),
      rstripNl s = s ∧ s.length = L := by
    intro s hsf
    exact ⟨rstrip_iter_product cs hnl L s (hws s hsf),
      ((mem_iter_product_strings cs L s).mp (hws s hsf)).1⟩
  have hdisj : (st.file).Disjoint (ss.filter
      (fun t => t ∉ scan_existing_by_len (some (linesToRaw st.file)) L)) := by
    rw [List.disjoint_left]
    intro t htf htw
    have hprop := hwsprop t htw
    have : t ∈ scan_existing_by_len (some (linesToRaw st.file)) L :=
      (mem_scan_lines st.file L t).mpr ⟨⟨t, htf, hprop.1⟩, hprop.2⟩
    have hnot := (List.mem_filter.mp htw).2
    simp only [decide_eq_true_eq] at hnot
    exact hnot this
  refine ⟨?_, ?_, ?_⟩
  · rw [h1]
    intro t ht
    rcases List.mem_append.mp ht with h | h
    · exact hclean t h
    · exact (hwsprop t h).1
  · rw [h1]
    exact hnd.append (hss.filter _) hdisj
  · rw [h1, h2, scan_lines_append, scan_lines_of_full _ L hwsprop]
    ext x
    simp only [Finset.mem_union, List.mem_toFinset, List.mem_filter,
      decide_eq_true_eq]
    constructor
    · rintro (hx | hx)
      · exact Or.inl hx
      · by_cases hscan : x ∈ scan_existing_by_len (some (linesToRaw st.file)) L
        · exact Or.inl hscan
        · exact Or.inr ⟨hx, hscan⟩
    · rintro (hx | ⟨hx, -⟩)
      · exact Or.inl hx
      · exact Or.inr hx

/-- Clean-and-duplicate-free is preserved over any sequence of full ordered
    length blocks. -/
theorem runBlocks_clean (cs : List Char) (hcs : cs.Nodup)
    (hnl : ∀ c ∈ cs, c ≠ '\n' ∧ c ≠ '\r') :
    ∀ (Ls : List Nat) (st : EngState), (∀ t ∈ st.file, rstripNl t = t) →
      st.file.Nodup →
      (∀ t ∈ ((Ls.flatMap (lenEvents cs)).foldl (step cs) st).file, rstripNl t = t)
      ∧ ((Ls.flatMap (lenEvents cs)).foldl (step cs) st).file.Nodup := by
  intro Ls
  induction Ls with
  | nil => intro st h1 h2; exact ⟨h1, h2⟩
  | cons L0 T ih =>
    intro st h1 h2
    rw [List.flatMap_cons, List.foldl_append]
    have hblk := lenFold_partial_clean cs hnl L0 (iter_product_strings cs L0)
      (nodup_iter_product_strings cs L0 hcs) (fun s hs => hs) st h1 h2
    exact ih _ hblk.1 hblk.2.1

/-- C2: at every checkpoint of a run that starts from a clean duplicate-free
    output file (in particular an empty file or one produced by this engine) —
    any number of completed length blocks, then the current length `L` after
    any prefix `ss` of its generated candidates — the output file contains no
    two identical lines of any length, and the cardinality of the in-memory
    existing set equals the number of length-`L` lines of the file: the engine
    appends `s` only when `s ∉ ExistingSet(L)` and inserts it right after. -/
theorem C2_no_duplicates (cs : List Char) (file0 : List String)
    (doneLs : List Nat) (L : Nat) (ss : List String)
    (hcs : cs.Nodup) (hnl : ∀ c ∈ cs, c ≠ '\n' ∧ c ≠ '\r')
    (hclean0 : ∀ t ∈ file0, rstripNl t = t) (hnd0 : file0.Nodup)
    (hss : ss <+: iter_product_strings cs L) :
    (∀ Lq, (((doneLs.flatMap (lenEvents cs) ++ Ev.startLen L :: candEvs L ss).foldl
        (step cs) (initState file0)).file.filter (fun s => s.length = Lq)).Nodup)
    ∧ ((doneLs.flatMap (lenEvents cs) ++ Ev.startLen L :: candEvs L ss).foldl
        (step cs) (initState file0)).hav.card
      = (((doneLs.flatMap (lenEvents cs) ++ Ev.startLen L :: candEvs L ss).foldl
          (step cs) (initState file0)).file.filter (fun s => s.length = L)).length := by
  rw [List.foldl_append]
  have hdone := runBlocks_clean cs hcs hnl doneLs (initState file0) hclean0 hnd0
  obtain ⟨p1, p2, p3⟩ := lenFold_partial_clean cs hnl L ss
    (List.Nodup.sublist hss.sublist (nodup_iter_product_strings cs L hcs))
    (fun s hs => hss.subset hs) _ hdone.1 hdone.2
  constructor
  · intro Lq
    exact p2.filter _
  · rw [p3, scan_lines_of_clean _ L p1, List.toFinset_card_of_nodup (p2.filter _)]

/-- Witness for C2 at a concrete checkpoint: starting file `["zz"]`, length 1
    completed, length 2 stopped after the candidate prefix `["aa", "ab"]`. -/
theorem C2_no_duplicates_witness :
    (((([1] : List Nat).flatMap (lenEvents ['a', 'b']) ++ Ev.startLen 2
        :: candEvs 2 ["aa", "ab"]).foldl (step ['a', 'b'])
        (initState ["zz"])).file.filter (fun s => s.length = 2)).Nodup :=
  (C2_no_duplicates ['a', 'b'] ["zz"] [1] 2 ["aa", "ab"] (by decide) (by decide)
    (by decide) (by decide) (by decide)).1 2

/-- C5: for any per-position permutations of the charset, shuffled mode
    produces exactly the same `C^L` distinct strings as ordered mode, each
    exactly once — only the visiting order differs — and running the engine's
    length block in shuffled mode yields the same final set of file lines as
    ordered mode, from any starting state. -/
theorem C5_shuffle_invariance (cs : List Char) (L : Nat)
    (perms : List (List Char)) (hcs : cs.Nodup) (hlen : perms.length = L)
    (hperm : ∀ p ∈ perms, p.Perm cs) :
    (product_of perms).length = cs.length ^ L
    ∧ (product_of perms).Nodup
    ∧ (∀ w, w ∈ product_of perms ↔ w ∈ iter_product cs L)
    ∧ ((product_of perms).map String.mk).toFinset
        = (iter_product_strings cs L).toFinset
    ∧ ∀ st : EngState,
        (((lenEventsShuffled L perms).foldl (step cs) st).file).toFinset
          = (((lenEvents cs L).foldl (step cs) st).file).toFinset := by
  have hmemw : ∀ w, w ∈ product_of perms ↔ w ∈ iter_product cs L := by
    intro w
    rw [mem_product_of_uniform cs perms w (fun p hp c => (hperm p hp).mem_iff),
      mem_iter_product, hlen]
  have hmems : ∀ s : String,
      s ∈ (product_of perms).map String.mk ↔ s ∈ iter_product_strings cs L := by
    intro s
    simp only [List.mem_map, iter_product_strings]
    constructor
    · rintro ⟨w, hw, rfl⟩
      exact ⟨w, (hmemw w).mp hw, rfl⟩
    · rintro ⟨w, hw, rfl⟩
      exact ⟨w, (hmemw w).mpr hw, rfl⟩
  have hnodup_sh : (product_of perms).Nodup :=
    nodup_product_of perms (fun p hp => ((hperm p hp).nodup_iff).mpr hcs)
  have hlength : (product_of perms).length = cs.length ^ L := by
    rw [length_product_of]
    have : perms.map List.length = List.replicate L cs.length := by
      rw [List.eq_replicate_iff]
      refine ⟨by simp [hlen], ?_⟩
      intro b hb
      obtain ⟨p, hp, rfl⟩ := List.mem_map.mp hb
      exact (hperm p hp).length_eq
    rw [this, List.prod_replicate]
  refine ⟨hlength, hnodup_sh, hmemw, ?_, ?_⟩
  · ext s
    simp only [List.mem_toFinset]
    exact hmems s
  · intro st
    rw [lenEventsShuffled, lenEvents_def, List.foldl_cons, List.foldl_cons]
    obtain ⟨a1, -, -, -, -, -, -⟩ := candFold cs L ((product_of perms).map String.mk)
      (step cs st (.startLen L)) (hnodup_sh.map string_mk_injective)
    obtain ⟨b1, -, -, -, -, -, -⟩ := candFold cs L (iter_product_strings cs L)
      (step cs st (.startLen L)) (nodup_iter_product_strings cs L hcs)
    rw [a1, b1]
    ext x
    simp only [List.toFinset_append, Finset.mem_union, List.mem_toFinset,
      List.mem_filter, decide_eq_true_eq]
    constructor
    · rintro (hx | ⟨hx, hx2⟩)
      · exact Or.inl hx
      · exact Or.inr ⟨(hmems x).mp hx, hx2⟩
    · rintro (hx | ⟨hx, hx2⟩)
      · exact Or.inl hx
      · exact Or.inr ⟨(hmems x).mpr hx, hx2⟩

/-- Witness for C5 with alphabet `{a, b}`, length 2, and the per-position
    permutations `[ba, ab]`. -/
theorem C5_shuffle_invariance_witness :
    (product_of [['b', 'a'], ['a', 'b']]).length = 4
    ∧ ((product_of [['b', 'a'], ['a', 'b']]).map String.mk).toFinset
        = (iter_product_strings ['a', 'b'] 2).toFinset :=
  ⟨(C5_shuffle_invariance ['a', 'b'] 2 [['b', 'a'], ['a', 'b']] (by decide)
      (by decide) (by decide)).1,
   (C5_shuffle_invariance ['a', 'b'] 2 [['b', 'a'], ['a', 'b']] (by decide)
      (by decide) (by decide)).2.2.2.1⟩

/-- Binding into singleton lists is mapping. -/
theorem flatMap_single (l : List Char) :
    l.flatMap (fun c => [[c]]) = l.map (fun c => [c]) := by
  induction l with
  | nil => rfl
  | cons a t ih => rw [List.flatMap_cons, List.map_cons, ih]; rfl

/-- Peeling the rightmost (fastest) position off the ordered product. -/
theorem iter_snoc (cs : List Char) :
    ∀ L : Nat, iter_product cs (L + 1)
      = (iter_product cs L).flatMap (fun w => cs.map (fun c => w ++ [c])) := by
  intro L
  induction L with
  | zero =>
    show product_of [cs] = _
    simp only [product_of, List.map_cons, List.map_nil, iter_product,
      List.replicate, List.flatMap_cons, List.flatMap_nil, List.append_nil]
    rw [flatMap_single]
    simp
  | succ L ih =>
    show product_of (List.replicate (L + 2) cs) = _
    rw [List.replicate_succ, product_of]
    have ihp : product_of (List.replicate (L + 1) cs)
        = (iter_product cs L).flatMap (fun w => cs.map (fun c => w ++ [c])) := ih
    rw [ihp]
    show _ = (product_of (List.replicate (L + 1) cs)).flatMap _
    rw [List.replicate_succ, product_of]
    rw [List.flatMap_assoc]
    congr 1
    funext c
    rw [List.map_flatMap, List.flatMap_map]
    congr 1
    funext w
    rw [List.map_map]
    congr 1

/-- Indexing a uniform-block-length flat map. -/
theorem getElem?_flatMap_uniform {α β : Type} (B : Nat) (hB : 0 < B) :
    ∀ (l : List α) (f : α → List β), (∀ a, (f a).length = B) →
      ∀ n, (l.flatMap f)[n]? = (l[n / B]?).bind (fun a => (f a)[n % B]?) := by
  intro l
  induction l with
  | nil => intro f hf n; simp
  | cons a t ih =>
    intro f hf n
    rw [List.flatMap_cons]
    by_cases hn : n < B
    · rw [List.getElem?_append, if_pos (by rw [hf a]; exact hn),
        Nat.div_eq_of_lt hn, Nat.mod_eq_of_lt hn]
      simp
    · have hn' : B ≤ n := Nat.le_of_not_lt hn
      rw [List.getElem?_append, if_neg (by rw [hf a]; omega), hf a,
        ih f hf (n - B), Nat.div_eq_sub_div hB hn', Nat.mod_eq_sub_mod hn',
        List.getElem?_cons_succ]

/-- The `n`-th element of the ordered generator is the base-`C` odometer word
    of `n` (rightmost position advancing fastest). -/
theorem iter_product_getElem? (cs : List Char) :
    ∀ (L n : Nat),
      (iter_product cs L)[n]?
        = if n < cs.length ^ L then some (odometer cs L n) else none := by
  intro L
  induction L with
  | zero =>
    intro n
    cases n with
    | zero => simp [iter_product, product_of, odometer]
    | succ m => simp [iter_product, product_of, odometer]
  | succ L ih =>
    intro n
    rcases Nat.eq_zero_or_pos cs.length with hC | hC
    · have hcs : cs = [] := List.length_eq_zero.mp hC
      subst hcs
      rw [show iter_product [] (L + 1) = product_of ([] :: List.replicate L []) from
        by rw [iter_product, List.replicate_succ]]
      simp [product_of]
    · rw [iter_snoc cs L,
        getElem?_flatMap_uniform cs.length hC (iter_product cs L)
          (fun w => cs.map (fun c => w ++ [c])) (fun w => by simp) n,
        ih (n / cs.length)]
      by_cases h : n < cs.length ^ (L + 1)
      · have hdiv : n / cs.length < cs.length ^ L := by
          rw [Nat.div_lt_iff_lt_mul hC, ← pow_succ]
          exact h
        rw [if_pos hdiv, if_pos h, Option.some_bind, List.getElem?_map]
        have hmod : n % cs.length < cs.length := Nat.mod_lt _ hC
        rw [List.getElem?_eq_getElem hmod]
        have hgetD : cs.getD (n % cs.length) default = cs[n % cs.length] := by
          rw [List.getD_eq_getElem?_getD, List.getElem?_eq_getElem hmod]
          rfl
        show some (odometer cs L (n / cs.length) ++ [cs[n % cs.length]]) = _
        rw [odometer, hgetD]
      · have hdiv : ¬ n / cs.length < cs.length ^ L := by
          rw [Nat.div_lt_iff_lt_mul hC, ← pow_succ]
          exact h
        rw [if_neg hdiv, if_neg h]
        rfl

/-- The ordered generator is literally the odometer enumeration of
    `0, 1, ..., C^L - 1`. -/
theorem iter_product_eq_odometer (cs : List Char) (L : Nat) :
    iter_product cs L = (List.range (cs.length ^ L)).map (odometer cs L) := by
  apply List.ext_getElem?
  intro n
  rw [iter_product_getElem?, List.getElem?_map]
  by_cases h : n < cs.length ^ L
  · rw [if_pos h, List.getElem?_range h]
    rfl
  · rw [if_neg h, List.getElem?_eq_none (by rw [List.length_range]; omega)]
    rfl

/-- C6: in ordered mode the generator produces exactly `C^L` length-`L`
    strings over the alphabet, without repetition or omission, and its output
    list is exactly the odometer enumeration (the rightmost position advances
    fastest); the same holds for the joined candidate strings. -/
theorem C6_ordered_generator (cs : List Char) (L : Nat) (hcs : cs.Nodup) :
    (iter_product cs L).length = cs.length ^ L
    ∧ (iter_product cs L).Nodup
    ∧ (∀ w, w ∈ iter_product cs L ↔ w.length = L ∧ ∀ c ∈ w, c ∈ cs)
    ∧ iter_product cs L = (List.range (cs.length ^ L)).map (odometer cs L)
    ∧ (iter_product_strings cs L).length = cs.length ^ L
    ∧ (iter_product_strings cs L).Nodup
    ∧ ∀ s : String,
        s ∈ iter_product_strings cs L ↔ s.length = L ∧ ∀ c ∈ s.data, c ∈ cs :=
  ⟨length_iter_product cs L, nodup_iter_product cs L hcs, mem_iter_product cs L,
   iter_product_eq_odometer cs L, length_iter_product_strings cs L,
   nodup_iter_product_strings cs L hcs, mem_iter_product_strings cs L⟩

/-- Witness for C6 with alphabet `{a, b}` and length 2. -/
theorem C6_ordered_generator_witness :
    iter_product ['a', 'b'] 2 = (List.range 4).map (odometer ['a', 'b'] 2)
    ∧ (iter_product ['a', 'b'] 2).length = 4 :=
  ⟨(C6_ordered_generator ['a', 'b'] 2 (by decide)).2.2.2.1,
   (C6_ordered_generator ['a', 'b'] 2 (by decide)).1⟩

/-- C7: the Existing-Set Scanner returns the empty set on a non-existent
    file; on an existing file it returns exactly the set of distinct strings
    whose stripped decoded content has length `L`; and malformed bytes are
    skipped without failing the scan — scanning the file with its malformed
    bytes removed gives the same result.  Being a pure function of the file
    content, the scan is read-only. -/
theorem C7_scanner :
    (∀ L, scan_existing_by_len none L = ∅)
    ∧ (∀ (raws : List RawLine) (L : Nat),
        scan_existing_by_len (some raws) L
          = ((raws.map (fun r => rstripNl (decode_ignore r))).filter
              (fun s => s.length = L)).toFinset)
    ∧ (∀ (raws : List RawLine) (L : Nat) (s : String),
        s ∈ scan_existing_by_len (some raws) L
          ↔ (∃ raw ∈ raws, rstripNl (decode_ignore raw) = s) ∧ s.length = L)
    ∧ (∀ (raws : List RawLine) (L : Nat),
        scan_existing_by_len (some raws) L
          = scan_existing_by_len
              (some (raws.map (fun r => (r.filterMap id).map some))) L) := by
  refine ⟨fun L => rfl, scan_some_eq, ?_, ?_⟩
  · intro raws L s
    rw [scan_some_eq]
    simp only [List.mem_toFinset, List.mem_filter, List.mem_map,
      decide_eq_true_eq]
  · intro raws L
    rw [scan_some_eq, scan_some_eq, List.map_map]
    congr 1
    congr 1
    apply List.map_congr_left
    intro r _
    show rstripNl (decode_ignore r)
        = rstripNl (decode_ignore ((r.filterMap id).map some))
    congr 1
    apply String.ext
    show r.filterMap id = List.filterMap id ((r.filterMap id).map some)
    rw [List.filterMap_map]
    exact (List.filterMap_some _).symm

/-- C8: with invalid length bounds (`min_len < 1` or `max_len < min_len`) the
    program exits with a non-zero status before any file I/O: the output file
    is neither created nor modified, no report is written, and the engine
    never runs. -/
theorem C8_validation (min_len max_len : Int) (file : Option (List String))
    (h : min_len < 1 ∨ max_len < min_len) :
    (main_py.main CHARSET min_len max_len file).exit_code ≠ 0
    ∧ (main_py.main CHARSET min_len max_len file).out_file = file
    ∧ (main_py.main CHARSET min_len max_len file).report_written = false
    ∧ (main_py.main CHARSET min_len max_len file).state = none := by
  simp only [main_py.main, if_pos h]
  exact ⟨Nat.one_ne_zero, by trivial, by trivial, by trivial⟩

/-- Witness for C8: sample scenario D, `min = 5`, `max = 2`, no file yet. -/
theorem C8_validation_witness :
    (main_py.main CHARSET 5 2 none).exit_code ≠ 0
    ∧ (main_py.main CHARSET 5 2 none).out_file = none
    ∧ (main_py.main CHARSET 5 2 none).report_written = false :=
  ⟨(C8_validation 5 2 none (Or.inr (by decide))).1,
   (C8_validation 5 2 none (Or.inr (by decide))).2.1,
   (C8_validation 5 2 none (Or.inr (by decide))).2.2.1⟩

/-- C9: `CHARSET` contains no newline or carriage-return character, every
    line the engine appends while processing length `L` is a `CHARSET` string
    of length exactly `L` (unchanged by stripping), and the scanner on the
    resulting file recovers exactly the previous length-`L` set plus the
    appended lines — in particular every appended line is found again.  This
    is the round-trip property that makes the per-length pre-scan resume
    correctly. -/
theorem C9_write_scan_roundtrip (st : EngState) (L : Nat) :
    (∀ c ∈ CHARSET, c ≠ '\n' ∧ c ≠ '\r')
    ∧ ∃ ws : List String,
        ((lenEvents CHARSET L).foldl (step CHARSET) st).file = st.file ++ ws
        ∧ (∀ s ∈ ws, s.length = L ∧ (∀ c ∈ s.data, c ∈ CHARSET) ∧ rstripNl s = s)
        ∧ scan_existing_by_len
            (some (linesToRaw (((lenEvents CHARSET L).foldl (step CHARSET) st).file))) L
          = scan_existing_by_len (some (linesToRaw st.file)) L ∪ ws.toFinset
        ∧ ∀ s ∈ ws, s ∈ scan_existing_by_len
            (some (linesToRaw (((lenEvents CHARSET L).foldl (step CHARSET) st).file))) L := by
  have hnl : ∀ c ∈ CHARSET, c ≠ '\n' ∧ c ≠ '\r' := by decide
  have hcs : CHARSET.Nodup := by decide
  refine ⟨hnl, ?_⟩
  rw [lenEvents_def, List.foldl_cons, step_startLen]
  obtain ⟨h1, -, -, -, -, -, -⟩ := candFold CHARSET L (iter_product_strings CHARSET L)
    { st with
      hav := scan_existing_by_len (some (linesToRaw st.file)) L
      stats := updStats st.stats L
        (fun _ => ⟨CHARSET.length ^ L,
          (scan_existing_by_len (some (linesToRaw st.file)) L).card, 0, 0⟩) }
    (nodup_iter_product_strings CHARSET L hcs)
  have hwsprop : ∀ t ∈ (iter_product_strings CHARSET L).filter
      (fun t => t ∉ scan_existing_by_len (some (linesToRaw st.file)) L),
      rstripNl t = t ∧ t.length = L := by
    intro t ht
    have htm : t ∈ iter_product_strings CHARSET L := (List.mem_filter.mp ht).1
    exact ⟨rstrip_iter_product CHARSET hnl L t htm,
      ((mem_iter_product_strings CHARSET L t).mp htm).1⟩
  refine ⟨(iter_product_strings CHARSET L).filter
    (fun t => t ∉ scan_existing_by_len (some (linesToRaw st.file)) L), h1, ?_, ?_, ?_⟩
  · intro s hs
    have hsm : s ∈ iter_product_strings CHARSET L := (List.mem_filter.mp hs).1
    exact ⟨((mem_iter_product_strings CHARSET L s).mp hsm).1,
      ((mem_iter_product_strings CHARSET L s).mp hsm).2,
      rstrip_iter_product CHARSET hnl L s hsm⟩
  · rw [h1, scan_lines_append, scan_lines_of_full _ L hwsprop]
  · intro s hs
    rw [h1, scan_lines_append, scan_lines_of_full _ L hwsprop]
    exact Finset.mem_union_right _ (List.mem_toFinset.mpr hs)

/-- Unfolding the empty run of the exception-aware engine. -/
theorem runE_nil (cs : List Char) (fe : Nat) (st : EngState) :
    runE cs fe st [] = Except.ok st := rfl

/-- Unfolding one step of the exception-aware engine. -/
theorem runE_cons (cs : List Char) (fe : Nat) (st : EngState) (ev : Ev)
    (evs : List Ev) :
    runE cs fe st (ev :: evs)
      = match stepE cs fe st ev with
        | .error e => .error e
        | .ok st' => runE cs fe st' evs := rfl

/-- With a positive flush interval, the exception-aware step is the plain
    step. -/
theorem stepE_ok (cs : List Char) (flush_every : Nat) (hfe : 1 ≤ flush_every)
    (st : EngState) (ev : Ev) :
    stepE cs flush_every st ev = .ok (step cs st ev) := by
  cases ev with
  | startLen l => rfl
  | cand l s =>
    simp only [stepE]
    by_cases hmem : s ∈ st.hav
    · rw [if_pos hmem]
    · rw [if_neg hmem, if_neg (by omega)]

/-- The write counter never decreases along the run. -/
theorem written_mono (cs : List Char) :
    ∀ (evs : List Ev) (st : EngState),
      st.total_written ≤ (evs.foldl (step cs) st).total_written := by
  intro evs
  induction evs with
  | nil => intro st; exact Nat.le_refl _
  | cons ev rest ih =>
    intro st
    rw [List.foldl_cons]
    refine Nat.le_trans ?_ (ih (step cs st ev))
    cases ev with
    | startLen l => exact Nat.le_refl _
    | cand l s =>
      by_cases hmem : s ∈ st.hav
      · rw [step_cand_of_mem _ _ _ _ hmem]
      · rw [step_cand_of_not_mem _ _ _ _ hmem]
        exact Nat.le_succ _

/-- C10: the periodic-flush check `total_written % flush_every` makes the run
    total exactly when `flush_every ≥ 1`: then the exception-aware run equals
    the plain run; with `flush_every = 0` the run raises `ZeroDivisionError`
    (aborting instead of completing) precisely when at least one new candidate
    is written. -/
theorem C10_flush_division (cs : List Char) (flush_every : Nat) (st : EngState)
    (evs : List Ev) :
    (1 ≤ flush_every →
      runE cs flush_every st evs = Except.ok (evs.foldl (step cs) st))
    ∧ (flush_every = 0 →
      (runE cs 0 st evs = Except.error ()
        ↔ st.total_written < (evs.foldl (step cs) st).total_written)) := by
  constructor
  · intro hfe
    induction evs generalizing st with
    | nil => rfl
    | cons ev rest ih =>
      rw [List.foldl_cons, runE_cons, stepE_ok cs flush_every hfe st ev]
      exact ih (step cs st ev)
  · intro hfe
    subst hfe
    induction evs generalizing st with
    | nil =>
      rw [runE_nil, List.foldl_nil]
      constructor
      · intro h
        exact absurd h (by simp)
      · intro h
        exact absurd h (Nat.lt_irrefl _)
    | cons ev rest ih =>
      rw [List.foldl_cons, runE_cons]
      cases ev with
      | startLen l =>
        exact ih (step cs st (.startLen l))
      | cand l s =>
        by_cases hmem : s ∈ st.hav
        · have hE : stepE cs 0 st (.cand l s) = .ok (step cs st (.cand l s)) := by
            simp [stepE, hmem]
          rw [hE]
          have hW : (step cs st (.cand l s)).total_written = st.total_written := by
            rw [step_cand_of_mem _ _ _ _ hmem]
          rw [← hW]
          exact ih (step cs st (.cand l s))
        · have hE : stepE cs 0 st (.cand l s) = .error () := by
            simp [stepE, hmem]
          rw [hE]
          constructor
          · intro _
            have h1 : (step cs st (.cand l s)).total_written
                = st.total_written + 1 := by
              rw [step_cand_of_not_mem _ _ _ _ hmem]
            have h2 := written_mono cs rest (step cs st (.cand l s))
            omega
          · intro _
            rfl

/-- Witness for C10: a single-length run over alphabet `{a}` from an empty
    file errors with `flush_every = 0` and completes with `flush_every = 1`. -/
theorem C10_flush_division_witness :
    runE ['a'] 0 (initState []) (runEvents ['a'] 1 1) = Except.error ()
    ∧ runE ['a'] 1 (initState []) (runEvents ['a'] 1 1)
        = Except.ok ((runEvents ['a'] 1 1).foldl (step ['a']) (initState [])) :=
  ⟨((C10_flush_division ['a'] 0 (initState []) (runEvents ['a'] 1 1)).2 rfl).mpr
      (by decide),
   (C10_flush_division ['a'] 1 (initState []) (runEvents ['a'] 1 1)).1 (by decide)⟩
